import Mathlib

/-!
Verification of the Mechaml core: a shallow embedding, in Lean, of the
Rust sources binding a host language to the OCaml runtime.

The embedding covers:

* `src/raw.rs` — the tagged word encoding (`val_int` / `int_val`) and the
  raw allocation primitive `alloc` (`caml_alloc` once, then one
  `caml_modify` per field);
* `src/mem.rs` — the rooted-handle lifecycle (`P::new`, `P::register`,
  `P::root`) and the `Drop` impl of `CamlRootsBlock`, over the global
  chain head `caml_local_roots`;
* `src/macros.rs` — the expansion order of the `local!` macro
  (new, register, evaluate the initializer, root);
* `src/stdlib/list.rs`, `src/stdlib/option.rs` — the `Build` impls for
  `Cons` / `Nil` / `Some` / `None`;
* `src/stdlib/pervasives.rs` — the `int` newtype, `From<isize>` and the
  arithmetic operators generated by `impl_binop`;
* `src/matching.rs` — the shallow `match_` decoder.

Machine words (`isize` in the source) are modelled as `Int` with explicit
two's-complement wrapping at 64 bits.  Mutable state (the OCaml heap, the
per-handle value slots and root frames, and the global root-chain head) is
modelled by an explicit state record `GcState` threaded through every
operation; every state-touching operation also appends an event to an
instrumentation trace so that temporal claims (what happened in which
order) can be stated as properties of the trace.
-/

namespace Mechaml

/-! ## Value representation (`src/raw.rs`) -/

/-- Two's-complement wrapping of an `Int` into the signed 64-bit range,
the behaviour of arithmetic on `isize` bit patterns. -/
def wrapSigned (x : Int) : Int := (x + 2 ^ 63) % 2 ^ 64 - 2 ^ 63

/-- Model of `val_int!(i) = (i << 1) | 1` from `src/raw.rs`: the shift wraps at the
word width, and since the shifted word is even, `| 1` is `+ 1`. -/
def val_int (i : Int) : Int := wrapSigned (2 * i + 1)

/-- Model of `int_val!(v) = v >> 1` from `src/raw.rs`: an arithmetic right shift of
a signed word, i.e. floor division by 2. -/
def int_val (v : Int) : Int := Int.fdiv v 2

/-- The immediate width: integers representable in one fewer bit than the
64-bit word, i.e. `-2^62 ≤ i < 2^62`. -/
def immRange (i : Int) : Prop := -(2 ^ 62) ≤ i ∧ i < 2 ^ 62

instance (i : Int) : Decidable (immRange i) := by
  unfold immRange; infer_instance

lemma wrapSigned_eq_self {x : Int} (h1 : -(2 ^ 63) ≤ x) (h2 : x < 2 ^ 63) :
    wrapSigned x = x := by
  unfold wrapSigned; omega

lemma val_int_eq_of_immRange {i : Int} (h : immRange i) :
    val_int i = 2 * i + 1 := by
  obtain ⟨h1, h2⟩ := h
  unfold val_int
  apply wrapSigned_eq_self <;> omega

lemma int_val_val_int {i : Int} (h : immRange i) : int_val (val_int i) = i := by
  rw [val_int_eq_of_immRange h]
  unfold int_val
  rw [Int.fdiv_eq_ediv]
  all_goals omega

/-! ## The `int` newtype (`src/stdlib/pervasives.rs`)

`int` wraps a raw `Value`; we model it by the raw word itself.
`From<isize>` encodes; each operator generated by `impl_binop` decodes
both operands with `int_val!`, applies the native operator and re-encodes
with `val_int!`.  Native `/` on `isize` truncates toward zero
(`Int.tdiv`). -/

/-- Model of `impl From<isize> for int` — `int(val_int!(i))`. -/
def int_from (i : Int) : Int := val_int i

/-- The `Add` impl generated by `impl_binop!(Add, add, +)`. -/
def int_add (x y : Int) : Int := val_int (int_val x + int_val y)

/-- The `Sub` impl generated by `impl_binop!(Sub, sub, -)`. -/
def int_sub (x y : Int) : Int := val_int (int_val x - int_val y)

/-- The `Mul` impl generated by `impl_binop!(Mul, mul, *)`. -/
def int_mul (x y : Int) : Int := val_int (int_val x * int_val y)

/-- The `Div` impl generated by `impl_binop!(Div, div, /)`; Rust integer
division truncates toward zero. -/
def int_div (x y : Int) : Int := val_int (Int.tdiv (int_val x) (int_val y))

/-! ## Claim C2 -/

/-- C2: for every integer representable in one fewer bit than the word
width (including negative ones), decoding the encoding recovers it:
`int_val (val_int i) = i`.  `val_int` produces `(i << 1) | 1` and
`int_val` is an arithmetic right shift by one. -/
theorem decode_encode_int (i : Int) (h : immRange i) :
    int_val (val_int i) = i :=
  int_val_val_int h

/-- Witness for C2 at `i = -5`. -/
theorem decode_encode_int_witness : int_val (val_int (-5)) = -5 :=
  decode_encode_int (-5) (by decide)

/-! ## Claim C10 -/

/-- C10: the operators on the bound `int` type are homomorphic to native
integer arithmetic: for operands within the immediate width whose exact
native result is also within the immediate width (operands nonzero for
division), `int::from(a) ⊕ int::from(b) = int::from(a ⊕ b)` for
addition, subtraction, multiplication and (truncating) division. -/
theorem int_ops_homomorphic (a b : Int) (ha : immRange a) (hb : immRange b) :
    (immRange (a + b) → int_add (int_from a) (int_from b) = int_from (a + b))
    ∧ (immRange (a - b) → int_sub (int_from a) (int_from b) = int_from (a - b))
    ∧ (immRange (a * b) → int_mul (int_from a) (int_from b) = int_from (a * b))
    ∧ (b ≠ 0 → immRange (Int.tdiv a b) →
        int_div (int_from a) (int_from b) = int_from (Int.tdiv a b)) := by
  refine ⟨fun _ => ?_, fun _ => ?_, fun _ => ?_, fun _ _ => ?_⟩ <;>
    simp only [int_add, int_sub, int_mul, int_div, int_from,
      int_val_val_int ha, int_val_val_int hb]

/-- Witness for C10 at `a = 7`, `b = -2`: addition and truncating
division both proceed through decode, native operation, re-encode. -/
theorem int_ops_homomorphic_witness :
    int_add (int_from 7) (int_from (-2)) = int_from 5
    ∧ int_div (int_from 7) (int_from (-2)) = int_from (-3) := by
  exact ⟨((int_ops_homomorphic 7 (-2) (by decide) (by decide)).1 (by decide)),
    ((int_ops_homomorphic 7 (-2) (by decide) (by decide)).2.2.2 (by decide) (by decide))⟩

/-! ## Heap, root frames and instrumented state

The OCaml heap is modelled as a list of blocks, a block being a tag byte
plus its fields (the header that physically precedes the field area in
memory is abstracted into the record).  A pointer `Value` to block `i`
is modelled by the even word `8 * (i + 1)` (real block pointers are
8-byte aligned, hence even and nonzero).

Stack memory holding handles is modelled by two address-indexed stores:
`slots` for the `val` cell of each `P` and `frames` for its
`CamlRootsBlock`; address `0` plays the role of the null pointer.  The
global `caml_local_roots` head is a frame address.  Every operation also
appends a `TraceEvent` so temporal claims can be read off the trace. -/

/-- A heap block: a one-byte tag plus fields, each field a raw word. -/
structure Block where
  tag : Nat
  fields : List Int
  deriving DecidableEq, Repr

/-- The pointer `Value` referring to heap block `idx`. -/
def ptrVal (idx : Nat) : Int := 8 * (idx + 1)

/-- Dereference a pointer `Value`: defined only on the aligned, nonzero
addresses actually handed out by the allocator. -/
def blockAt (h : List Block) (v : Int) : Option Block :=
  if 0 < v ∧ v % 8 = 0 then h.get? (v.toNat / 8 - 1) else none

/-- Model of `CamlRootsBlock` from `src/mem.rs`; `tables0` is `tables[0]` (the
array always has length 1), pointer fields hold `0` for null. -/
structure CamlRootsBlock where
  next : Nat
  ntables : Nat
  nitems : Nat
  tables0 : Nat
  deriving DecidableEq, Repr

/-- Instrumentation events, one per state-touching operation. -/
inductive TraceEvent where
  /-- Event of `P::new` creating slot `slot` and frame `f`. -/
  | newEvt (slot f : Nat)
  /-- Event of `P::register` splicing frame `f` (whose `tables[0]` is `slot`)
  into the chain. -/
  | registerEvt (f slot : Nat)
  /-- Event of `P::root` overwriting slot `slot` with the real value. -/
  | rootEvt (slot : Nat)
  /-- Event of `caml_alloc(size, tag)` — an allocation, which may move the heap. -/
  | allocEvt (size tag : Nat)
  /-- Event of `caml_modify(&block[i], v)` — the write-barrier field update. -/
  | modifyEvt (idx i : Nat) (v : Int)
  deriving DecidableEq, Repr

/-- Is this event an allocation request to the runtime? -/
def TraceEvent.isAlloc : TraceEvent → Bool
  | .allocEvt _ _ => true
  | _ => false

/-- Pointwise store update. -/
def upd {α : Type} (f : Nat → α) (k : Nat) (v : α) : Nat → α :=
  fun n => if n = k then v else f n

/-- The mutable state threaded through every operation. -/
structure GcState where
  heap : List Block
  frames : Nat → CamlRootsBlock
  slots : Nat → Int
  caml_local_roots : Nat
  nextFresh : Nat
  trace : List TraceEvent

/-- The state at process start: empty heap, zeroed memory, null chain
head; fresh addresses start at 1 so that 0 stays the null pointer. -/
def initState : GcState :=
  ⟨[], fun _ => ⟨0, 0, 0, 0⟩, fun _ => 0, 0, 1, []⟩

/-! ## Handle lifecycle (`src/mem.rs`) -/

/-- Model of `P::new()`: the value slot is initialized with `val_int!(0)` (the
immediate 1) and the frame is zeroed; the chain head is untouched. -/
def P_new (slot f : Nat) (s : GcState) : GcState :=
  { s with
      slots := upd s.slots slot (val_int 0),
      frames := upd s.frames f ⟨0, 0, 0, 0⟩,
      trace := s.trace ++ [.newEvt slot f] }

/-- Model of `P::register()`: sets `nitems = ntables = 1`, `tables[0]` to the
slot address and `next` to the current `caml_local_roots`, then makes
the frame the new chain head. -/
def P_register (slot f : Nat) (s : GcState) : GcState :=
  { s with
      frames := upd s.frames f ⟨s.caml_local_roots, 1, 1, slot⟩,
      caml_local_roots := f,
      trace := s.trace ++ [.registerEvt f slot] }

/-- Model of `P::root(val)`: overwrites the value slot. -/
def P_root (slot : Nat) (v : Int) (s : GcState) : GcState :=
  { s with
      slots := upd s.slots slot v,
      trace := s.trace ++ [.rootEvt slot] }

/-- Model of `impl Drop for CamlRootsBlock`: restores `caml_local_roots` to the
frame's `next` pointer. -/
def dropFrame (f : Nat) (s : GcState) : GcState :=
  { s with caml_local_roots := (s.frames f).next }

/-! ## Claim C3 -/

/-- C3: the root-registry operations have push/pop semantics.
`P::register` (push) stores the current chain head into the frame's
`next`, publishes the slot address via `tables[0]` with
`ntables = nitems = 1`, and then makes the frame the chain head;
frame destruction (pop), under the precondition that the frame is the
current chain head, sets the chain head to the frame's `next`. -/
theorem register_push_drop_pop (s : GcState) (slot f : Nat) :
    ((P_register slot f s).frames f = ⟨s.caml_local_roots, 1, 1, slot⟩
      ∧ (P_register slot f s).caml_local_roots = f)
    ∧ (s.caml_local_roots = f →
        (dropFrame f s).caml_local_roots = (s.frames f).next) := by
  refine ⟨⟨?_, rfl⟩, fun _ => rfl⟩
  simp [P_register, upd]

/-- Witness for C3: push then pop on a concrete state restores the
previous head. -/
theorem register_push_drop_pop_witness :
    (dropFrame 2 (P_register 1 2 initState)).caml_local_roots
      = ((P_register 1 2 initState).frames 2).next :=
  (register_push_drop_pop (P_register 1 2 initState) 1 2).2 rfl

/-! ## Claim C9 -/

/-- C9: a freshly created handle holds the definitely-immediate sentinel
`(0 << 1) | 1 = 1` (odd, so a collector scanning it never dereferences
it), its root frame is zeroed (`ntables = nitems = 0`, null `next` and
table pointers), and creation leaves the global chain head unchanged. -/
theorem new_handle_uninitialized_safe (s : GcState) (slot f : Nat) :
    (P_new slot f s).slots slot = val_int 0
    ∧ val_int 0 = 1
    ∧ val_int 0 % 2 = 1
    ∧ (P_new slot f s).frames f = ⟨0, 0, 0, 0⟩
    ∧ (P_new slot f s).caml_local_roots = s.caml_local_roots := by
  refine ⟨?_, by decide, by decide, ?_, rfl⟩ <;> simp [P_new, upd]

/-! ## Claim C8 -/

/-- A scope entry: for each `(slot, frame, value)` triple in order,
create, register and root one handle — the `local!` expansion. -/
def scopeEnter : List (Nat × Nat × Int) → GcState → GcState
  | [], s => s
  | (slot, f, v) :: rest, s =>
      scopeEnter rest (P_root slot v (P_register slot f (P_new slot f s)))

/-- A scope exit: handles are dropped in reverse creation order, each
drop running the `CamlRootsBlock` destructor. -/
def scopeExit : List (Nat × Nat × Int) → GcState → GcState
  | [], s => s
  | (_, f, _) :: rest, s => dropFrame f (scopeExit rest s)

lemma scopeExit_frames (l : List (Nat × Nat × Int)) (s : GcState) :
    (scopeExit l s).frames = s.frames := by
  induction l generalizing s with
  | nil => rfl
  | cons x rest ih => simp [scopeExit, dropFrame, ih]

lemma scopeEnter_frames_notMem (l : List (Nat × Nat × Int)) (s : GcState)
    (f : Nat) (hf : f ∉ l.map fun x => x.2.1) :
    (scopeEnter l s).frames f = s.frames f := by
  induction l generalizing s with
  | nil => rfl
  | cons x rest ih =>
      obtain ⟨slot, g, v⟩ := x
      simp only [List.map_cons, List.mem_cons] at hf
      push_neg at hf
      simp only [scopeEnter, ih _ hf.2, P_root, P_register, P_new, upd]
      simp [hf.1]

/-- C8: root-frame chain balance.  A scope that creates and registers
`k` handles at pairwise-distinct frame addresses and drops them all in
reverse creation order leaves the global chain head exactly as it was
before the scope was entered. -/
theorem scope_chain_balance (l : List (Nat × Nat × Int)) (s : GcState)
    (hnd : (l.map fun x => x.2.1).Nodup) :
    (scopeExit l (scopeEnter l s)).caml_local_roots = s.caml_local_roots := by
  induction l generalizing s with
  | nil => rfl
  | cons x rest ih =>
      obtain ⟨slot, f, v⟩ := x
      simp only [List.map_cons, List.nodup_cons] at hnd
      simp only [scopeEnter, scopeExit, dropFrame,
        scopeExit_frames, scopeEnter_frames_notMem rest _ f hnd.1]
      simp [P_root, P_register, P_new, upd]

/-- Witness for C8: a scope of two concrete handles over the initial
state restores the null chain head. -/
theorem scope_chain_balance_witness :
    (scopeExit [(1, 2, 5), (3, 4, 7)]
        (scopeEnter [(1, 2, 5), (3, 4, 7)] initState)).caml_local_roots
      = initState.caml_local_roots :=
  scope_chain_balance [(1, 2, 5), (3, 4, 7)] initState (by decide)

/-! ## Allocation primitive (`src/raw.rs` `alloc`) -/

/-- Replace the element at position `n` by `f` of itself. -/
def modifyAt {α : Type} (f : α → α) : Nat → List α → List α
  | _, [] => []
  | 0, a :: l => f a :: l
  | n + 1, a :: l => a :: modifyAt f n l

/-- Model of `caml_modify(blk.offset(i), v)`: the write-barrier-respecting update
of field `i` of block `idx`; it is the external runtime's field-update
entry point, the only way any field is ever written. -/
def caml_modify (idx i : Nat) (v : Int) (s : GcState) : GcState :=
  { s with
      heap := modifyAt (fun b => { b with fields := b.fields.set i v }) idx s.heap,
      trace := s.trace ++ [.modifyEvt idx i v] }

/-- The loop `for (i, val) in values.iter().enumerate()` of `alloc`,
writing the fields through `caml_modify` in increasing index order. -/
def writeFields (idx : Nat) : Nat → List Int → GcState → GcState
  | _, [], s => s
  | i, v :: rest, s => writeFields idx (i + 1) rest (caml_modify idx i v s)

/-- Model of `caml_alloc(size, tag)`: the external runtime hands out a fresh
block of `size` uninitialized words tagged `tag`. -/
def caml_alloc (size tag : Nat) (s : GcState) : Nat × GcState :=
  (s.heap.length,
    { s with
        heap := s.heap ++ [⟨tag, List.replicate size 0⟩],
        trace := s.trace ++ [.allocEvt size tag] })

/-- Model of `raw::alloc(tag, values)` from `src/raw.rs`: one `caml_alloc` of
`values.len()` words, then one `caml_modify` per field in index order,
returning the block pointer as a `Value`. -/
def alloc (tag : Nat) (values : List Int) (s : GcState) : Int × GcState :=
  let r := caml_alloc values.length tag s
  (ptrVal r.1, writeFields r.1 0 values r.2)

/-- The modification events emitted for fields `vs` of block `idx`
starting at offset `i`: one per field, at consecutive offsets. -/
def modEvents (idx : Nat) : Nat → List Int → List TraceEvent
  | _, [] => []
  | i, v :: rest => .modifyEvt idx i v :: modEvents idx (i + 1) rest

lemma writeFields_trace (idx : Nat) (vs : List Int) (i : Nat) (s : GcState) :
    (writeFields idx i vs s).trace = s.trace ++ modEvents idx i vs := by
  induction vs generalizing i s with
  | nil => simp [writeFields, modEvents]
  | cons v rest ih => simp [writeFields, modEvents, ih, caml_modify]

lemma modifyAt_append_singleton {α : Type} (f : α → α) (l : List α) (a : α) :
    modifyAt f l.length (l ++ [a]) = l ++ [f a] := by
  induction l with
  | nil => rfl
  | cons x xs ih => simp [modifyAt, ih]

lemma set_append_cons {α : Type} (pre : List α) (z : α) (rest : List α) (v : α) :
    (pre ++ z :: rest).set pre.length v = pre ++ v :: rest := by
  induction pre with
  | nil => rfl
  | cons x xs ih => simp [List.set, ih]

lemma writeFields_heap (vs : List Int) (pre rest : List Int) (t : Nat)
    (H : List Block) (s : GcState)
    (hheap : s.heap = H ++ [⟨t, pre ++ rest⟩]) (hlen : rest.length = vs.length) :
    (writeFields H.length pre.length vs s).heap = H ++ [⟨t, pre ++ vs⟩] := by
  induction vs generalizing pre rest s with
  | nil =>
      cases rest with
      | nil => simpa [writeFields] using hheap
      | cons z zs => simp at hlen
  | cons v vrest ih =>
      cases rest with
      | nil => simp at hlen
      | cons z zs =>
          simp only [writeFields]
          have hmod : (caml_modify H.length pre.length v s).heap
              = H ++ [⟨t, (pre ++ [v]) ++ zs⟩] := by
            simp only [caml_modify, hheap, modifyAt_append_singleton]
            simp [set_append_cons]
          have := ih (pre ++ [v]) zs (caml_modify H.length pre.length v s)
            (by simpa using hmod) (by simpa using hlen)
          simpa using this

lemma alloc_trace (tag : Nat) (values : List Int) (s : GcState) :
    (alloc tag values s).2.trace
      = s.trace ++ TraceEvent.allocEvt values.length tag
          :: modEvents s.heap.length 0 values := by
  simp [alloc, caml_alloc, writeFields_trace]

lemma modEvents_no_alloc (idx i : Nat) (vs : List Int) :
    ∀ e ∈ modEvents idx i vs, e.isAlloc = false := by
  induction vs generalizing i with
  | nil => simp [modEvents]
  | cons v rest ih =>
      intro e he
      rcases List.mem_cons.1 he with h | h
      · subst h; rfl
      · exact ih (i + 1) e h

/-! ## Claim C4 -/

/-- C4: for every tag and field list, `alloc` requests exactly one block
of `values.len()` words with the given tag from the external runtime,
then performs exactly one `caml_modify` call per field at consecutive
offsets in increasing index order (field `i` at offset `i`, never a raw
store), leaves the new block holding exactly the requested fields, and
returns the new block's pointer reinterpreted as a `Value`. -/
theorem alloc_one_block_one_modify_per_field (tag : Nat) (values : List Int)
    (s : GcState) :
    (alloc tag values s).1 = ptrVal s.heap.length
    ∧ (alloc tag values s).2.heap = s.heap ++ [⟨tag, values⟩]
    ∧ (alloc tag values s).2.trace
        = s.trace ++ TraceEvent.allocEvt values.length tag
            :: modEvents s.heap.length 0 values := by
  refine ⟨rfl, ?_, ?_⟩
  · have := writeFields_heap values [] (List.replicate values.length 0) tag
      s.heap { s with
          heap := s.heap ++ [⟨tag, List.replicate values.length 0⟩],
          trace := s.trace ++ [.allocEvt values.length tag] }
      (by simp) (by simp)
    simpa [alloc, caml_alloc] using this
  · simp [alloc, caml_alloc, writeFields_trace]

/-! ## Builder protocol (`src/mem.rs`, `src/macros.rs`, `src/stdlib`) -/

/-- The builder descriptions exercised by the standard bindings:
`int` (for `int::from(n)`, whose `Build` impl returns the already
encoded word with no allocation), `Nil` and `None` (nullary, unboxed)
and the compound builders `Cons` and `Some`. -/
inductive Builder where
  | intB (n : Int)
  | nilB
  | noneB
  | consB (hd tl : Builder)
  | someB (inner : Builder)

/-- Model of `Build::build`, state-passing.  The compound cases follow the
`local!` expansion from `src/macros.rs` literally: for each binder in
order, `P::new()`, then `register()`, then evaluation of the
initializer (the child's own `build`, which may allocate), then
`root(...)`; finally the parent's `raw_alloc` on the rooted slots.
`Nil`, `None` and `int` allocate nothing. -/
def build : Builder → GcState → Int × GcState
  | .intB n, s => (val_int n, s)
  | .nilB, s => (val_int 0, s)
  | .noneB, s => (val_int 0, s)
  | .someB inner, s =>
      let slot := s.nextFresh
      let f := s.nextFresh + 1
      let s1 := P_register slot f (P_new slot f { s with nextFresh := s.nextFresh + 2 })
      let r := build inner s1
      let s2 := P_root slot r.1 r.2
      alloc 0 [s2.slots slot] s2
  | .consB hd tl, s =>
      let slot1 := s.nextFresh
      let f1 := s.nextFresh + 1
      let s1 := P_register slot1 f1 (P_new slot1 f1 { s with nextFresh := s.nextFresh + 2 })
      let r1 := build hd s1
      let s2 := P_root slot1 r1.1 r1.2
      let slot2 := s2.nextFresh
      let f2 := s2.nextFresh + 1
      let s3 := P_register slot2 f2 (P_new slot2 f2 { s2 with nextFresh := s2.nextFresh + 2 })
      let r2 := build tl s3
      let s4 := P_root slot2 r2.1 r2.2
      alloc 0 [s4.slots slot1, s4.slots slot2] s4

lemma build_trace_append (b : Builder) (s : GcState) :
    ∃ t, (build b s).2.trace = s.trace ++ t := by
  induction b generalizing s with
  | intB n => exact ⟨[], by simp [build]⟩
  | nilB => exact ⟨[], by simp [build]⟩
  | noneB => exact ⟨[], by simp [build]⟩
  | someB inner ih =>
      set s1 := P_register s.nextFresh (s.nextFresh + 1)
        (P_new s.nextFresh (s.nextFresh + 1) { s with nextFresh := s.nextFresh + 2 })
        with hs1
      obtain ⟨t, ht⟩ := ih s1
      set s2 := P_root s.nextFresh (build inner s1).1 (build inner s1).2 with hs2
      have hs1t : s1.trace = s.trace ++ [TraceEvent.newEvt s.nextFresh (s.nextFresh + 1),
          TraceEvent.registerEvt (s.nextFresh + 1) s.nextFresh] := by
        rw [hs1]; simp [P_register, P_new]
      have hs2t : s2.trace = s1.trace ++ t ++ [TraceEvent.rootEvt s.nextFresh] := by
        rw [hs2]; simp [P_root, ht]
      refine ⟨[TraceEvent.newEvt s.nextFresh (s.nextFresh + 1),
          TraceEvent.registerEvt (s.nextFresh + 1) s.nextFresh] ++ t
          ++ [TraceEvent.rootEvt s.nextFresh]
          ++ TraceEvent.allocEvt 1 0
            :: modEvents s2.heap.length 0 [s2.slots s.nextFresh], ?_⟩
      show (alloc 0 [s2.slots s.nextFresh] s2).2.trace = _
      rw [alloc_trace, hs2t, hs1t]
      simp [List.append_assoc]
  | consB hd tl ih1 ih2 =>
      set s1 := P_register s.nextFresh (s.nextFresh + 1)
        (P_new s.nextFresh (s.nextFresh + 1) { s with nextFresh := s.nextFresh + 2 })
        with hs1
      obtain ⟨t1, ht1⟩ := ih1 s1
      set s2 := P_root s.nextFresh (build hd s1).1 (build hd s1).2 with hs2
      set s3 := P_register s2.nextFresh (s2.nextFresh + 1)
        (P_new s2.nextFresh (s2.nextFresh + 1) { s2 with nextFresh := s2.nextFresh + 2 })
        with hs3
      obtain ⟨t2, ht2⟩ := ih2 s3
      set s4 := P_root s2.nextFresh (build tl s3).1 (build tl s3).2 with hs4
      have hs1t : s1.trace = s.trace ++ [TraceEvent.newEvt s.nextFresh (s.nextFresh + 1),
          TraceEvent.registerEvt (s.nextFresh + 1) s.nextFresh] := by
        rw [hs1]; simp [P_register, P_new]
      have hs2t : s2.trace = s1.trace ++ t1 ++ [TraceEvent.rootEvt s.nextFresh] := by
        rw [hs2]; simp [P_root, ht1]
      have hs3t : s3.trace = s2.trace ++ [TraceEvent.newEvt s2.nextFresh (s2.nextFresh + 1),
          TraceEvent.registerEvt (s2.nextFresh + 1) s2.nextFresh] := by
        rw [hs3]; simp [P_register, P_new]
      have hs4t : s4.trace = s3.trace ++ t2 ++ [TraceEvent.rootEvt s2.nextFresh] := by
        rw [hs4]; simp [P_root, ht2]
      refine ⟨[TraceEvent.newEvt s.nextFresh (s.nextFresh + 1),
          TraceEvent.registerEvt (s.nextFresh + 1) s.nextFresh] ++ t1
          ++ [TraceEvent.rootEvt s.nextFresh]
          ++ [TraceEvent.newEvt s2.nextFresh (s2.nextFresh + 1),
              TraceEvent.registerEvt (s2.nextFresh + 1) s2.nextFresh] ++ t2
          ++ [TraceEvent.rootEvt s2.nextFresh]
          ++ TraceEvent.allocEvt 2 0
            :: modEvents s4.heap.length 0
                [s4.slots s.nextFresh, s4.slots s2.nextFresh], ?_⟩
      show (alloc 0 [s4.slots s.nextFresh, s4.slots s2.nextFresh] s4).2.trace = _
      rw [alloc_trace, hs4t, hs3t, hs2t, hs1t]
      simp [List.append_assoc]

/-! ## Claim C1 -/

/-- C1: in a compound build (the `Cons` builder), each child is built
under an already-registered root frame and its result is rooted
immediately — the trace shows, for each child, `new`, `register` (of the
frame holding that child's slot), the child's own build trace, and then
that child's `root` event with nothing in between; both children are
registered and rooted before the parent's single `allocate` request, and
the only events after it are the parent's field `modify` calls, none of
which is an allocation.  Hence no allocation call occurs between a
child's build and its rooting. -/
theorem compound_build_roots_children_before_alloc (b1 b2 : Builder) (s : GcState) :
    ∃ slot1 f1 slot2 f2 sA sB t1 t2 mods,
      (build (.consB b1 b2) s).2.trace =
        s.trace
          ++ ([TraceEvent.newEvt slot1 f1, TraceEvent.registerEvt f1 slot1]
              ++ t1 ++ [TraceEvent.rootEvt slot1])
          ++ ([TraceEvent.newEvt slot2 f2, TraceEvent.registerEvt f2 slot2]
              ++ t2 ++ [TraceEvent.rootEvt slot2])
          ++ TraceEvent.allocEvt 2 0 :: mods
      ∧ (build b1 sA).2.trace = sA.trace ++ t1
      ∧ (build b2 sB).2.trace = sB.trace ++ t2
      ∧ ∀ e ∈ mods, e.isAlloc = false := by
  set sA := P_register s.nextFresh (s.nextFresh + 1)
    (P_new s.nextFresh (s.nextFresh + 1) { s with nextFresh := s.nextFresh + 2 })
    with hsA
  obtain ⟨t1, h1⟩ := build_trace_append b1 sA
  set s2 := P_root s.nextFresh (build b1 sA).1 (build b1 sA).2 with hs2
  set sB := P_register s2.nextFresh (s2.nextFresh + 1)
    (P_new s2.nextFresh (s2.nextFresh + 1) { s2 with nextFresh := s2.nextFresh + 2 })
    with hsB
  obtain ⟨t2, h2⟩ := build_trace_append b2 sB
  set s4 := P_root s2.nextFresh (build b2 sB).1 (build b2 sB).2 with hs4
  have hsAt : sA.trace = s.trace ++ [TraceEvent.newEvt s.nextFresh (s.nextFresh + 1),
      TraceEvent.registerEvt (s.nextFresh + 1) s.nextFresh] := by
    rw [hsA]; simp [P_register, P_new]
  have hs2t : s2.trace = sA.trace ++ t1 ++ [TraceEvent.rootEvt s.nextFresh] := by
    rw [hs2]; simp [P_root, h1]
  have hsBt : sB.trace = s2.trace ++ [TraceEvent.newEvt s2.nextFresh (s2.nextFresh + 1),
      TraceEvent.registerEvt (s2.nextFresh + 1) s2.nextFresh] := by
    rw [hsB]; simp [P_register, P_new]
  have hs4t : s4.trace = sB.trace ++ t2 ++ [TraceEvent.rootEvt s2.nextFresh] := by
    rw [hs4]; simp [P_root, h2]
  refine ⟨s.nextFresh, s.nextFresh + 1, s2.nextFresh, s2.nextFresh + 1, sA, sB, t1, t2,
    modEvents s4.heap.length 0 [s4.slots s.nextFresh, s4.slots s2.nextFresh],
    ?_, h1, h2, modEvents_no_alloc _ _ _⟩
  show (alloc 0 [s4.slots s.nextFresh, s4.slots s2.nextFresh] s4).2.trace = _
  rw [alloc_trace, hs4t, hsBt, hs2t, hsAt]
  simp [List.append_assoc]

/-! ## Matcher protocol (`src/matching.rs`)

`match_` is generic in the `Match` impl of the scrutinee's type, which
supplies the inline-tag and block-tag enumerations via `From<isize>` and
`From<u8>` conversions.  Those conversions are `transmute`s, defined only
on the enumeration's declared discriminants; we model them as
`Option`-valued functions.  The `BlockValue` view is the block's field
area itself, borrowed in place: in the model, the fields list of the
block, undecoded (one level only). -/

/-- The `Matcher` enum: `Inline(tag)` or `Block(tag, fields-view)`. -/
inductive Matcher (ι β : Type) where
  | Inline : ι → Matcher ι β
  | Block : β → List Int → Matcher ι β
  deriving DecidableEq

/-- Model of `match_` from `src/matching.rs`: if the word's low bit is 0 it is a
pointer — read the block tag from the header of the pointed block and
return the fields in place; otherwise decode the immediate with an
arithmetic shift and convert it into the inline-tag enumeration. -/
def match_ {ι β : Type} (inlFrom : Int → Option ι) (blkFrom : Nat → Option β)
    (h : List Block) (v : Int) : Option (Matcher ι β) :=
  if v % 2 = 0 then
    match blockAt h v with
    | some b =>
        match blkFrom b.tag with
        | some t => some (.Block t b.fields)
        | none => none
    | none => none
  else
    match inlFrom (int_val v) with
    | some t => some (.Inline t)
    | none => none

/-- The inline-tag enumeration of `List` (`stdlib/list.rs` `tag::Inline`,
sole variant `Nil = 0`). -/
inductive ListTagInline where
  | Nil
  deriving DecidableEq

/-- The block-tag enumeration of `List` (`stdlib/list.rs` `tag::Block`,
sole variant `Cons = 0`). -/
inductive ListTagBlock where
  | Cons
  deriving DecidableEq

/-- Model of `From<isize> for tag::Inline` — a transmute, defined only on the
declared discriminant 0. -/
def listTagInlineFrom (x : Int) : Option ListTagInline :=
  if x = 0 then some .Nil else none

/-- Model of `From<u8> for tag::Block` — a transmute, defined only on the
declared discriminant 0. -/
def listTagBlockFrom (t : Nat) : Option ListTagBlock :=
  if t = 0 then some .Cons else none

/-- Instance of `match_` at the `Match` impl of `List<T>`. -/
def matchList (h : List Block) (v : Int) : Option (Matcher ListTagInline ListTagBlock) :=
  match_ listTagInlineFrom listTagBlockFrom h v

/-- The inline-tag enumeration of `Option` (`stdlib/option.rs`
`tag::Inline`; the source names its sole variant `Nil = 0`). -/
inductive OptionTagInline where
  | Nil
  deriving DecidableEq

/-- The block-tag enumeration of `Option` (`stdlib/option.rs`
`tag::Block`; the source names its sole variant `Cons = 0`). -/
inductive OptionTagBlock where
  | Cons
  deriving DecidableEq

/-- Model of `From<isize> for option::tag::Inline`. -/
def optionTagInlineFrom (x : Int) : Option OptionTagInline :=
  if x = 0 then some .Nil else none

/-- Model of `From<u8> for option::tag::Block`. -/
def optionTagBlockFrom (t : Nat) : Option OptionTagBlock :=
  if t = 0 then some .Cons else none

/-- Instance of `match_` at the `Match` impl of `Option<T>`. -/
def matchOption (h : List Block) (v : Int) : Option (Matcher OptionTagInline OptionTagBlock) :=
  match_ optionTagInlineFrom optionTagBlockFrom h v

/-! ## Claim C5 -/

/-- C5: the decoder inspects only the value's low bit to choose its
branch.  If the low bit is 1 it returns `Inline(tag)` with `tag` the
arithmetically right-shifted integer converted into the declared
inline-tag enumeration — and the heap plays no role at all.  If the low
bit is 0 it returns `Block(tag, fields)` with `tag` the one-byte tag of
the pointed block and `fields` that block's field area in place,
undecoded (one level of structure per call). -/
theorem match_inspects_low_bit {ι β : Type} (inlFrom : Int → Option ι)
    (blkFrom : Nat → Option β) (h : List Block) (v : Int) :
    (v % 2 = 1 → ∀ t, inlFrom (int_val v) = some t →
        match_ inlFrom blkFrom h v = some (.Inline t))
    ∧ (v % 2 = 1 → ∀ h2 : List Block,
        match_ inlFrom blkFrom h v = match_ inlFrom blkFrom h2 v)
    ∧ (v % 2 = 0 → ∀ b t, blockAt h v = some b → blkFrom b.tag = some t →
        match_ inlFrom blkFrom h v = some (.Block t b.fields)) := by
  refine ⟨fun hodd t ht => ?_, fun hodd h2 => ?_, fun heven b t hb ht => ?_⟩
  · simp [match_, hodd, ht]
  · simp [match_, hodd]
  · simp [match_, heven, hb, ht]

/-- Witness for C5: the immediate 1 decodes as `Inline(Nil)` on any
heap, and the aligned pointer 8 into a one-block heap decodes as
`Block(Cons, fields)`. -/
theorem match_inspects_low_bit_witness :
    match_ listTagInlineFrom listTagBlockFrom [] 1
        = some (.Inline ListTagInline.Nil)
    ∧ match_ listTagInlineFrom listTagBlockFrom [⟨0, [3]⟩] 8
        = some (.Block ListTagBlock.Cons [3]) :=
  ⟨(match_inspects_low_bit listTagInlineFrom listTagBlockFrom [] 1).1
      (by decide) ListTagInline.Nil (by decide),
    (match_inspects_low_bit listTagInlineFrom listTagBlockFrom [⟨0, [3]⟩] 8).2.2
      (by decide) ⟨0, [3]⟩ ListTagBlock.Cons (by decide) (by decide)⟩

/-! ## Claim C6 -/

/-- The builder description of `Cons(1, Cons(2, Nil))`. -/
def listOneTwo : Builder := .consB (.intB 1) (.consB (.intB 2) .nilB)

/-- C6: build-then-decode recovers the described structure.  Building
`Cons(1, Cons(2, Nil))` from the initial state and decoding the result
yields `Block(Cons, (1, rest))`; decoding `rest` yields
`Block(Cons, (2, tail))`; and decoding that tail yields `Inline(Nil)`. -/
theorem build_then_decode_cons_one_two :
    ∃ vRest vTail,
      matchList (build listOneTwo initState).2.heap (build listOneTwo initState).1
          = some (.Block ListTagBlock.Cons [val_int 1, vRest])
      ∧ matchList (build listOneTwo initState).2.heap vRest
          = some (.Block ListTagBlock.Cons [val_int 2, vTail])
      ∧ matchList (build listOneTwo initState).2.heap vTail
          = some (.Inline ListTagInline.Nil) :=
  ⟨8, 1, by decide, by decide, by decide⟩

/-! ## Claim C7 -/

/-- C7: building a nullary (unboxed) constructor such as `None` or `Nil`
performs no operation at all — the state, hence the trace, is untouched
— and returns the immediate `(0 << 1) | 1 = 1`, an odd word, distinct
from every (even) pointer `Value`.  Building `Some(7)` performs exactly
one allocation and returns a pointer `Value` whose single field decodes
to the immediate 7. -/
theorem nullary_builds_immediate_some_allocates :
    (∀ s : GcState, build .noneB s = (val_int 0, s))
    ∧ (∀ s : GcState, build .nilB s = (val_int 0, s))
    ∧ val_int 0 = 1
    ∧ val_int 0 % 2 = 1
    ∧ (∀ v : Int, v % 2 = 0 → val_int 0 ≠ v)
    ∧ (((build (.someB (.intB 7)) initState).2.trace.filter
          TraceEvent.isAlloc).length = 1
        ∧ (build (.someB (.intB 7)) initState).1 % 2 = 0
        ∧ matchOption (build (.someB (.intB 7)) initState).2.heap
              (build (.someB (.intB 7)) initState).1
            = some (.Block OptionTagBlock.Cons [val_int 7])
        ∧ int_val (val_int 7) = 7) := by
  refine ⟨fun s => rfl, fun s => rfl, by decide, by decide, ?_,
    by decide, by decide, by decide, by decide⟩
  intro v hv
  have h0 : val_int 0 = 1 := by decide
  omega

/-- Witness for C7: the immediate returned for `None` differs from the
concrete pointer `Value` returned for `Some(7)`. -/
theorem nullary_builds_immediate_some_allocates_witness :
    val_int 0 ≠ (8 : Int) :=
  (nullary_builds_immediate_some_allocates).2.2.2.2.1 8 (by decide)

end Mechaml
